import Mathlib

/-!
Shallow embedding of `volo-rs/linkedbytes` (`src/lib.rs`).

A `LinkedBytes` owns a list of frozen segments (`list : VecDeque<Node>`,
modelled as a Lean `List`), a growable tail buffer (`bytes : BytesMut`,
modelled by its byte content `List Nat`), and a scratch scatter view
(`ioslice : Vec<IoSlice<'static>>`, modelled by the byte content of the
ranges it holds).  Byte buffers are modelled by their current content; the
unused capacity of a `BytesMut` is not observable through any operation the
claims mention, so it is not tracked.
-/

namespace LB

/-- `enum Node { Bytes(Bytes), BytesMut(BytesMut), FastStr(FastStr) }`:
the three kinds of frozen byte sources a chain can hold. -/
inductive Node where
  | bytes (b : List Nat)
  | bytesMut (b : List Nat)
  | faststr (s : List Nat)
deriving Repr, DecidableEq

/-- `impl AsRef<[u8]> for Node`: view a node's current content as bytes. -/
def Node.as_ref : Node → List Nat
  | .bytes b => b
  | .bytesMut b => b
  | .faststr s => s

/-- `struct LinkedBytes { ioslice, bytes, list }`. -/
structure LinkedBytes where
  ioslice : List (List Nat)
  bytes : List Nat
  list : List Node
deriving Repr, DecidableEq

namespace LinkedBytes

/-- `LinkedBytes::with_capacity(cap)`: empty list, empty tail with capacity
`cap` (capacity is not observable in the content model), empty scratch. -/
def with_capacity (_cap : Nat) : LinkedBytes :=
  { ioslice := [], bytes := [], list := [] }

/-- `LinkedBytes::new()` = `with_capacity(DEFAULT_BUFFER_SIZE)`. -/
def new : LinkedBytes := with_capacity 8192

/-- `LinkedBytes::len`: sum of the node lengths plus the tail length. -/
def len (lb : LinkedBytes) : Nat :=
  (lb.list.foldl (fun acc node => acc + node.as_ref.length) 0) + lb.bytes.length

/-- `LinkedBytes::is_empty`. -/
def is_empty (lb : LinkedBytes) : Bool := lb.len == 0

/-- Appending `data` into the tail through the `BufMut` impl
(`chunk_mut`/`advance_mut` write at the end of `self.bytes`). -/
def append_bytes (lb : LinkedBytes) (data : List Nat) : LinkedBytes :=
  { lb with bytes := lb.bytes ++ data }

/-- `LinkedBytes::insert(bytes)`: split the tail (its content becomes a
`Node::BytesMut`, the tail restarts empty), push the split-off tail, then
push the frozen chunk. -/
def insert (lb : LinkedBytes) (b : List Nat) : LinkedBytes :=
  { lb with
    bytes := []
    list := lb.list ++ [Node.bytesMut lb.bytes, Node.bytes b] }

/-- `LinkedBytes::insert_faststr(fast_str)`: same as `insert` with a
`Node::FastStr` payload. -/
def insert_faststr (lb : LinkedBytes) (s : List Nat) : LinkedBytes :=
  { lb with
    bytes := []
    list := lb.list ++ [Node.bytesMut lb.bytes, Node.faststr s] }

/-- The scatter-view construction shared (verbatim, three times) by
`io_slice`, `write_all_vectored` and `sync_write_all_vectored`: one range
per non-empty node in order, then always one range for the tail. -/
def buildSlices (lb : LinkedBytes) : List (List Nat) :=
  ((lb.list.map Node.as_ref).filter (fun b => !b.isEmpty)) ++ [lb.bytes]

/-- `LinkedBytes::io_slice`: build the scatter view into a fresh vector. -/
def io_slice (lb : LinkedBytes) : List (List Nat) := lb.buildSlices

/-- The logical content of a chain: nodes in order, then the tail. -/
def content (lb : LinkedBytes) : List Nat :=
  (lb.list.map Node.as_ref).flatten ++ lb.bytes

end LinkedBytes

/-! ### Composition operations as a reified sequence -/

/-- One call of the composition API. -/
inductive Op where
  | append (data : List Nat)
  | insert (b : List Nat)
  | insertFaststr (s : List Nat)
deriving Repr, DecidableEq

/-- The piece of content an operation supplies. -/
def Op.piece : Op → List Nat
  | .append data => data
  | .insert b => b
  | .insertFaststr s => s

/-- Apply one composition operation. -/
def applyOp (lb : LB.LinkedBytes) : Op → LB.LinkedBytes
  | .append data => lb.append_bytes data
  | .insert b => lb.insert b
  | .insertFaststr s => lb.insert_faststr s

/-- Apply a sequence of composition operations in order. -/
def applyOps (lb : LB.LinkedBytes) (ops : List Op) : LB.LinkedBytes :=
  ops.foldl applyOp lb

/-! ### The vectored write driver

Both `write_all_vectored` and `sync_write_all_vectored` run the very same
algorithm (the async/sync split only concerns how the sink is awaited);
they are modelled by one loop over the window of not-yet-consumed ranges.
In the source the window is a raw-pointer pair `(base_ptr, len)` into
`self.ioslice` and the boundary range is shrunk in place; here the window
is the list of ranges it denotes.  The `Vec` length of `self.ioslice`
itself is unchanged by those in-place writes, which is all that later code
observes of it (`is_empty` in the entry assert, `clear` in `reset`). -/

/-- Outcome tag of a driver run.  `panicked` models a failed `assert!`. -/
inductive DriverResult where
  | ok
  | sinkError
  | writeZero
  | panicked
deriving Repr, DecidableEq

/-- A vectored-write sink (`writer.write_vectored`): from its own state and
the offered ranges, an error or the count of bytes accepted plus its next
state. -/
def Sink (σ : Type) : Type := σ → List (List Nat) → Except Unit (Nat × σ)

/-- Sinks that, on every call offering at least one byte, accept at least
one byte and at most the number of bytes offered (and do not error). -/
def ProgressSink {σ : Type} (sink : Sink σ) : Prop :=
  ∀ (s : σ) (ss : List (List Nat)), 0 < ss.flatten.length →
    ∃ n s', sink s ss = .ok (n, s') ∧ 1 ≤ n ∧ n ≤ ss.flatten.length

/-- The removal scan of the driver loop: the number `remove` of leading
buffers whose cumulative length fits within `n`, together with their total
length `accumulated_len` (starting from `acc`). -/
def removeCount (ss : List (List Nat)) (n acc : Nat) : Nat × Nat :=
  match ss with
  | [] => (0, acc)
  | buf :: rest =>
    if acc + buf.length > n then (0, acc)
    else
      let p := removeCount rest n (acc + buf.length)
      (p.1 + 1, p.2)

/-- One consumption step of the driver loop after the sink accepted `n`
bytes: remove the counted leading buffers; if buffers remain, shrink the
boundary buffer in place (advance its start by `n - accumulated_len`).
`none` models a failed `assert!` (advancing beyond the offered length). -/
def advance (ss : List (List Nat)) (n : Nat) : Option (List (List Nat)) :=
  match ss.drop (removeCount ss n 0).1 with
  | [] => if n = (removeCount ss n 0).2 then some [] else none
  | buf :: tail =>
    if n - (removeCount ss n 0).2 ≤ buf.length then
      some (buf.drop (n - (removeCount ss n 0).2) :: tail)
    else none

/-- What one driver invocation produced: the outcome, the bytes delivered
to the sink (each call with ranges `ss` accepting `n` delivers the first
`n` bytes of `ss` flattened), the number of sink calls, and the sink's
final state. -/
structure RunResult (σ : Type) where
  result : DriverResult
  delivered : List Nat
  calls : Nat
  sinkFinal : σ
deriving Repr

lemma removeCount_snd_le (ss : List (List Nat)) (n : Nat) :
    ∀ acc, acc ≤ n → (removeCount ss n acc).2 ≤ n := by
  induction ss with
  | nil => intro acc h; simpa [removeCount]
  | cons buf rest ih =>
    intro acc h
    by_cases hb : acc + buf.length > n
    · simp [removeCount, hb, h]
    · push_neg at hb
      simp only [removeCount, if_neg (by omega : ¬ acc + buf.length > n)]
      exact ih _ hb

lemma removeCount_snd_eq (ss : List (List Nat)) (n : Nat) :
    ∀ acc, (removeCount ss n acc).2
      = acc + ((ss.take (removeCount ss n acc).1).flatten).length := by
  induction ss with
  | nil => intro acc; simp [removeCount]
  | cons buf rest ih =>
    intro acc
    by_cases hb : acc + buf.length > n
    · simp [removeCount, hb]
    · simp only [removeCount, if_neg (by omega : ¬ acc + buf.length > n)]
      simpa [List.take_cons, Nat.add_assoc] using ih (acc + buf.length)

lemma removeCount_drop_gt (ss : List (List Nat)) (n : Nat) :
    ∀ acc {buf : List Nat} {tail : List (List Nat)},
      ss.drop (removeCount ss n acc).1 = buf :: tail →
      n < (removeCount ss n acc).2 + buf.length := by
  induction ss with
  | nil => intro acc buf tail h; simp [removeCount] at h
  | cons b rest ih =>
    intro acc buf tail h
    by_cases hb : acc + b.length > n
    · simp only [removeCount, if_pos hb, List.drop_zero] at h ⊢
      rw [List.cons.injEq] at h
      obtain ⟨h1, _⟩ := h
      subst h1
      omega
    · simp only [removeCount, if_neg (by omega : ¬ acc + b.length > n)] at h ⊢
      exact ih _ h

lemma advance_some_le {ss ss' : List (List Nat)} {n : Nat}
    (h : advance ss n = some ss') : n ≤ ss.flatten.length := by
  have hsplit : (ss.take (removeCount ss n 0).1).flatten.length
        + (ss.drop (removeCount ss n 0).1).flatten.length
      = ss.flatten.length := by
    rw [← List.length_append, ← List.flatten_append, List.take_append_drop]
  have hacc := removeCount_snd_eq ss n 0
  unfold advance at h
  rcases hdrop : ss.drop (removeCount ss n 0).1 with _ | ⟨buf, tail⟩
  · rw [hdrop] at h hsplit
    by_cases he : n = (removeCount ss n 0).2
    · simp only [List.flatten_nil, List.length_nil, Nat.add_zero] at hsplit
      omega
    · simp [he] at h
  · rw [hdrop] at h hsplit
    have hgt := removeCount_drop_gt ss n 0 hdrop
    have : (buf :: tail).flatten.length = buf.length + tail.flatten.length := by
      simp
    omega

lemma advance_flatten {ss ss' : List (List Nat)} {n : Nat}
    (h : advance ss n = some ss') :
    ss'.flatten = ss.flatten.drop n := by
  have hss : ss.flatten = (ss.take (removeCount ss n 0).1).flatten
      ++ (ss.drop (removeCount ss n 0).1).flatten := by
    rw [← List.flatten_append, List.take_append_drop]
  have hacc := removeCount_snd_eq ss n 0
  unfold advance at h
  rcases hdrop : ss.drop (removeCount ss n 0).1 with _ | ⟨buf, tail⟩
  · rw [hdrop] at h hss
    by_cases he : n = (removeCount ss n 0).2
    · simp only [if_pos he] at h
      cases h
      rw [hss]
      simp only [List.flatten_nil, List.append_nil]
      rw [List.drop_eq_nil_of_le (by omega)]
    · simp [he] at h
  · rw [hdrop] at h hss
    have hgt := removeCount_drop_gt ss n 0 hdrop
    have hle : (removeCount ss n 0).2 ≤ n := removeCount_snd_le ss n 0 (by omega)
    have hrem : n - (removeCount ss n 0).2 ≤ buf.length := by omega
    simp only [if_pos hrem] at h
    cases h
    have hlen : ((ss.take (removeCount ss n 0).1).flatten).length
        = (removeCount ss n 0).2 := by omega
    have h1 : ((ss.take (removeCount ss n 0).1).flatten).drop n = [] :=
      List.drop_eq_nil_of_le (by omega)
    have h2 : n - ((ss.take (removeCount ss n 0).1).flatten).length
        = n - (removeCount ss n 0).2 := by omega
    have h3 : n - (removeCount ss n 0).2 - buf.length = 0 := by omega
    rw [hss, List.drop_append_eq_append_drop, h1, List.nil_append, h2]
    simp only [List.flatten_cons]
    rw [List.drop_append_eq_append_drop, h3, List.drop_zero]

lemma advance_flatten_lt {ss ss' : List (List Nat)} {n : Nat}
    (hn : n ≠ 0) (h : advance ss n = some ss') :
    ss'.flatten.length < ss.flatten.length := by
  have hle := advance_some_le h
  have hfl := advance_flatten h
  rw [hfl, List.length_drop]
  omega

/-- The driver loop (`while len != 0 { ... }`): call the sink on the
current window, propagate a sink error, fail with `WriteZero` on `n == 0`,
otherwise consume `n` bytes from the front of the window and continue. -/
def writeLoop {σ : Type} (sink : Sink σ) (ss : List (List Nat)) (s : σ) :
    RunResult σ :=
  if ss.length = 0 then ⟨.ok, [], 0, s⟩
  else
    match sink s ss with
    | .error _ => ⟨.sinkError, [], 1, s⟩
    | .ok (n, s') =>
      if hn : n = 0 then ⟨.writeZero, [], 1, s'⟩
      else
        match hadv : advance ss n with
        | none => ⟨.panicked, ss.flatten.take n, 1, s'⟩
        | some ss' =>
          let r := writeLoop sink ss' s'
          ⟨r.result, ss.flatten.take n ++ r.delivered, r.calls + 1, r.sinkFinal⟩
termination_by ss.flatten.length
decreasing_by exact advance_flatten_lt hn hadv

/-- `LinkedBytes::write_all_vectored`: assert the scratch view is empty,
build the scatter view into `self.ioslice`, run the driver loop; only the
success path reaches `self.ioslice.clear()` — the error returns leave the
scratch populated. -/
def LinkedBytes.write_all_vectored {σ : Type} (lb : LB.LinkedBytes)
    (sink : Sink σ) (s : σ) : RunResult σ × LB.LinkedBytes :=
  if lb.ioslice.length ≠ 0 then (⟨.panicked, [], 0, s⟩, lb)
  else if (writeLoop sink lb.buildSlices s).result = .ok then
    (writeLoop sink lb.buildSlices s, { lb with ioslice := [] })
  else
    (writeLoop sink lb.buildSlices s, { lb with ioslice := lb.buildSlices })

/-- `LinkedBytes::sync_write_all_vectored`: textually the same algorithm as
`write_all_vectored` with a blocking sink call. -/
def LinkedBytes.sync_write_all_vectored {σ : Type} (lb : LB.LinkedBytes)
    (sink : Sink σ) (s : σ) : RunResult σ × LB.LinkedBytes :=
  if lb.ioslice.length ≠ 0 then (⟨.panicked, [], 0, s⟩, lb)
  else if (writeLoop sink lb.buildSlices s).result = .ok then
    (writeLoop sink lb.buildSlices s, { lb with ioslice := [] })
  else
    (writeLoop sink lb.buildSlices s, { lb with ioslice := lb.buildSlices })

/-- A concrete sink: it accepts exactly one byte per call whenever at
least one byte is offered, zero otherwise. -/
def oneByteSink : Sink Unit :=
  fun _ ss => .ok (min 1 ss.flatten.length, ())

/-- A concrete sink that always reports zero bytes accepted. -/
def zeroSink : Sink Unit := fun _ _ => .ok (0, ())

/-- A concrete sink that always fails. -/
def errSink : Sink Unit := fun _ _ => .error ()

/-- `LinkedBytes::reset`: clear the scratch view first; with no segments,
only clear the tail and return; otherwise the popped head node must be a
`BytesMut` (any other kind is `panic!("head is not BytesMut")`, modelled
as `none`); the remaining `BytesMut` nodes and the tail are merged back
into the head (`unsplit` reclaims capacity only, which the content model
does not track) and the merged buffer, cleared, becomes the new tail. -/
def LinkedBytes.reset (lb : LB.LinkedBytes) : Option LB.LinkedBytes :=
  match lb.list with
  | [] => some { lb with ioslice := [], bytes := [] }
  | LB.Node.bytesMut _ :: _ => some { ioslice := [], bytes := [], list := [] }
  | _ => none

/-- Chains reachable from the constructors via the public composition
operations and successful `reset` calls. -/
inductive Reachable : LB.LinkedBytes → Prop where
  | with_capacity (cap : Nat) : Reachable (LinkedBytes.with_capacity cap)
  | append {lb} (data : List Nat) :
      Reachable lb → Reachable (lb.append_bytes data)
  | insert {lb} (b : List Nat) : Reachable lb → Reachable (lb.insert b)
  | insert_faststr {lb} (s : List Nat) :
      Reachable lb → Reachable (lb.insert_faststr s)
  | reset {lb lb'} : Reachable lb → lb.reset = some lb' → Reachable lb'

/-! ### Chain-level helper lemmas -/

lemma foldl_len_eq (l : List LB.Node) (a : Nat) :
    l.foldl (fun acc node => acc + node.as_ref.length) a
      = a + ((l.map LB.Node.as_ref).flatten).length := by
  induction l generalizing a with
  | nil => simp
  | cons hd tl ih =>
    simp [ih, Nat.add_assoc]

lemma LinkedBytes.len_eq_content_length (lb : LB.LinkedBytes) :
    lb.len = lb.content.length := by
  unfold LB.LinkedBytes.len LB.LinkedBytes.content
  rw [foldl_len_eq]
  simp

lemma content_applyOp (lb : LB.LinkedBytes) (op : Op) :
    (applyOp lb op).content = lb.content ++ op.piece := by
  cases op <;>
    simp [applyOp, Op.piece, LB.LinkedBytes.content,
      LB.LinkedBytes.append_bytes, LB.LinkedBytes.insert,
      LB.LinkedBytes.insert_faststr, LB.Node.as_ref]

lemma buildSlices_flatten (lb : LB.LinkedBytes) :
    lb.buildSlices.flatten = lb.content := by
  unfold LB.LinkedBytes.buildSlices LB.LinkedBytes.content
  rw [List.flatten_append, List.flatten_filter_not_isEmpty]
  simp

lemma buildSlices_ne_nil (lb : LB.LinkedBytes) : lb.buildSlices ≠ [] :=
  List.append_ne_nil_of_right_ne_nil _ (by simp)

lemma ioslice_applyOp (lb : LB.LinkedBytes) (op : Op) :
    (applyOp lb op).ioslice = lb.ioslice := by
  cases op <;> rfl

lemma ioslice_applyOps (lb : LB.LinkedBytes) (ops : List Op) :
    (applyOps lb ops).ioslice = lb.ioslice := by
  induction ops generalizing lb with
  | nil => rfl
  | cons op rest ih =>
    show (applyOps (applyOp lb op) rest).ioslice = lb.ioslice
    rw [ih, ioslice_applyOp]

lemma content_applyOps (lb : LB.LinkedBytes) (ops : List Op) :
    (applyOps lb ops).content = lb.content ++ (ops.map Op.piece).flatten := by
  induction ops generalizing lb with
  | nil => simp [applyOps]
  | cons op rest ih =>
    show (applyOps (applyOp lb op) rest).content = _
    rw [ih, content_applyOp]
    simp

lemma content_new : LB.LinkedBytes.new.content = [] := rfl

lemma content_eq_nil_of_len_zero {lb : LB.LinkedBytes} (h : lb.len = 0) :
    lb.content = [] := by
  have := lb.len_eq_content_length
  rw [h] at this
  exact List.eq_nil_of_length_eq_zero this.symm

lemma buildSlices_of_len_zero {lb : LB.LinkedBytes} (h : lb.len = 0) :
    lb.buildSlices = [[]] := by
  have hc := content_eq_nil_of_len_zero h
  unfold LB.LinkedBytes.content at hc
  have hbytes : lb.bytes = [] := by
    rcases List.append_eq_nil.mp hc with ⟨_, h2⟩
    exact h2
  have hflat : (lb.list.map LB.Node.as_ref).flatten = [] := by
    rcases List.append_eq_nil.mp hc with ⟨h1, _⟩
    exact h1
  have hall := List.flatten_eq_nil_iff.mp hflat
  have hfilter : (lb.list.map LB.Node.as_ref).filter (fun b => !b.isEmpty)
      = [] := by
    rw [List.filter_eq_nil_iff]
    intro a ha
    simp [hall a ha]
  unfold LB.LinkedBytes.buildSlices
  rw [hbytes, hfilter]
  rfl

/-! ### Driver loop case lemmas -/

lemma writeLoop_nil {σ : Type} (sink : Sink σ) (s : σ) :
    writeLoop sink [] s = ⟨.ok, [], 0, s⟩ := by
  rw [writeLoop]
  simp

lemma writeLoop_sinkError {σ : Type} {sink : Sink σ} {ss : List (List Nat)}
    {s : σ} {e : Unit} (hne : ss ≠ []) (h : sink s ss = .error e) :
    writeLoop sink ss s = ⟨.sinkError, [], 1, s⟩ := by
  rw [writeLoop]
  rw [if_neg (by simp [hne])]
  split
  · next e' heq => rfl
  · next n' s'' heq => rw [h] at heq; cases heq

lemma writeLoop_writeZero {σ : Type} {sink : Sink σ} {ss : List (List Nat)}
    {s s' : σ} (hne : ss ≠ []) (h : sink s ss = .ok (0, s')) :
    writeLoop sink ss s = ⟨.writeZero, [], 1, s'⟩ := by
  rw [writeLoop]
  rw [if_neg (by simp [hne])]
  split
  · next e' heq => rw [h] at heq; cases heq
  · next n' s'' heq =>
      rw [h] at heq
      injection heq with heq1
      injection heq1 with heqn heqs
      subst heqn; subst heqs
      rw [dif_pos rfl]

lemma writeLoop_panicked {σ : Type} {sink : Sink σ} {ss : List (List Nat)}
    {s s' : σ} {n : Nat} (hne : ss ≠ []) (h : sink s ss = .ok (n, s'))
    (hn : n ≠ 0) (hadv : advance ss n = none) :
    writeLoop sink ss s = ⟨.panicked, ss.flatten.take n, 1, s'⟩ := by
  rw [writeLoop]
  rw [if_neg (by simp [hne])]
  split
  · next e' heq => rw [h] at heq; cases heq
  · next n' s'' heq =>
      rw [h] at heq
      injection heq with heq1
      injection heq1 with heqn heqs
      subst heqn; subst heqs
      rw [dif_neg hn]
      split
      · next heq2 => rfl
      · next ss2' heq2 => rw [hadv] at heq2; cases heq2

lemma advance_eq_nil (ss : List (List Nat)) (n : Nat)
    (h : ss.drop (removeCount ss n 0).1 = []) :
    advance ss n = if n = (removeCount ss n 0).2 then some [] else none := by
  unfold advance
  rw [h]

lemma advance_eq_cons (ss : List (List Nat)) (n : Nat) (buf : List Nat)
    (tail : List (List Nat)) (h : ss.drop (removeCount ss n 0).1 = buf :: tail) :
    advance ss n
      = if n - (removeCount ss n 0).2 ≤ buf.length then
          some (buf.drop (n - (removeCount ss n 0).2) :: tail)
        else none := by
  unfold advance
  rw [h]

lemma advance_of_le {ss : List (List Nat)} {n : Nat}
    (hn : n ≤ ss.flatten.length) : ∃ ss', advance ss n = some ss' := by
  have hsplit : (ss.take (removeCount ss n 0).1).flatten.length
        + (ss.drop (removeCount ss n 0).1).flatten.length
      = ss.flatten.length := by
    rw [← List.length_append, ← List.flatten_append, List.take_append_drop]
  have hacc := removeCount_snd_eq ss n 0
  have hle := removeCount_snd_le ss n 0 (Nat.zero_le n)
  rcases hdrop : ss.drop (removeCount ss n 0).1 with _ | ⟨buf, tail⟩
  · rw [advance_eq_nil ss n hdrop]
    rw [hdrop] at hsplit
    simp only [List.flatten_nil, List.length_nil, Nat.add_zero] at hsplit
    rw [if_pos (by omega)]
    exact ⟨[], rfl⟩
  · rw [advance_eq_cons ss n buf tail hdrop]
    have hgt := removeCount_drop_gt ss n 0 hdrop
    rw [if_pos (by omega)]
    exact ⟨_, rfl⟩

lemma advance_some_nonempty {ss ss' : List (List Nat)} {n : Nat}
    (h : advance ss n = some ss') : ss' = [] ∨ ss'.flatten ≠ [] := by
  unfold advance at h
  rcases hdrop : ss.drop (removeCount ss n 0).1 with _ | ⟨buf, tail⟩
  · rw [hdrop] at h
    by_cases he : n = (removeCount ss n 0).2
    · simp only [if_pos he] at h
      cases h
      exact Or.inl rfl
    · simp [he] at h
  · rw [hdrop] at h
    have hgt := removeCount_drop_gt ss n 0 hdrop
    have hle := removeCount_snd_le ss n 0 (Nat.zero_le n)
    by_cases hrem : n - (removeCount ss n 0).2 ≤ buf.length
    · simp only [if_pos hrem] at h
      cases h
      refine Or.inr ?_
      have hlt : n - (removeCount ss n 0).2 < buf.length := by omega
      have : 0 < (buf.drop (n - (removeCount ss n 0).2)).length := by
        rw [List.length_drop]; omega
      intro hcontra
      have := congrArg List.length hcontra
      simp only [List.flatten_cons, List.length_append, List.length_nil] at this
      omega
    · simp [hrem] at h

lemma writeLoop_ok {σ : Type} (sink : Sink σ) (hsink : ProgressSink sink) :
    ∀ (N : Nat) (ss : List (List Nat)) (s : σ), ss.flatten.length = N →
      (ss = [] ∨ ss.flatten ≠ []) →
      (writeLoop sink ss s).result = .ok ∧
        (writeLoop sink ss s).delivered = ss.flatten := by
  intro N
  induction N using Nat.strong_induction_on with
  | _ N ih =>
    intro ss s hN hinv
    rw [writeLoop]
    by_cases hlen : ss.length = 0
    · have hnil : ss = [] := List.length_eq_zero.mp hlen
      subst hnil
      simp
    · rw [if_neg hlen]
      have hne : ss ≠ [] := by
        intro hc; exact hlen (by simp [hc])
      have hpos : 0 < ss.flatten.length := by
        rcases hinv with h | h
        · exact absurd h hne
        · exact List.length_pos.mpr h
      obtain ⟨n, s', hcall, hn1, hn2⟩ := hsink s ss hpos
      split
      · next e heq =>
          rw [hcall] at heq; cases heq
      · next n' s'' heq =>
          rw [hcall] at heq
          injection heq with heq1
          injection heq1 with heqn heqs
          subst heqn; subst heqs
          rw [dif_neg (by omega : ¬ n = 0)]
          obtain ⟨ss2, hadv⟩ := advance_of_le hn2
          split
          · next heq2 =>
              rw [hadv] at heq2; cases heq2
          · next ss2' heq2 =>
              rw [hadv] at heq2
              injection heq2 with heq'
              subst heq'
              have hlt : ss2.flatten.length < N := by
                rw [← hN]
                exact advance_flatten_lt (by omega) hadv
              have hinv2 := advance_some_nonempty hadv
              obtain ⟨hres, hdel⟩ := ih _ hlt ss2 s' rfl hinv2
              dsimp only
              refine ⟨hres, ?_⟩
              rw [hdel, advance_flatten hadv, List.take_append_drop]

lemma advance_single_empty {n : Nat} (hn : n ≠ 0) : advance [[]] n = none := by
  have hrc : removeCount [[]] n 0 = (1, 0) := by
    simp [removeCount]
  have hdrop : ([[]] : List (List Nat)).drop (removeCount [[]] n 0).1 = [] := by
    rw [hrc]
    rfl
  rw [advance_eq_nil _ _ hdrop, hrc]
  exact if_neg hn

/-! ### Driver projection lemmas -/

lemma write_fst {σ : Type} {lb : LB.LinkedBytes} (sink : Sink σ) (s : σ)
    (hio : lb.ioslice = []) :
    (lb.write_all_vectored sink s).1 = writeLoop sink lb.buildSlices s := by
  unfold LB.LinkedBytes.write_all_vectored
  rw [if_neg (by simp [hio])]
  split <;> rfl

lemma write_snd {σ : Type} {lb : LB.LinkedBytes} (sink : Sink σ) (s : σ)
    (hio : lb.ioslice = []) :
    (lb.write_all_vectored sink s).2
      = if (writeLoop sink lb.buildSlices s).result = .ok then
          { lb with ioslice := [] }
        else { lb with ioslice := lb.buildSlices } := by
  unfold LB.LinkedBytes.write_all_vectored
  rw [if_neg (by simp [hio])]
  split <;> rfl

lemma sync_eq_async {σ : Type} (lb : LB.LinkedBytes) (sink : Sink σ)
    (s : σ) : lb.sync_write_all_vectored sink s = lb.write_all_vectored sink s :=
  rfl

/-! ### Reset helper lemmas -/

lemma reset_spec {lb lb' : LB.LinkedBytes} (h : lb.reset = some lb') :
    lb'.list = [] ∧ lb'.bytes = [] ∧ lb'.ioslice = [] := by
  unfold LB.LinkedBytes.reset at h
  rcases hl : lb.list with _ | ⟨node, rest⟩
  · rw [hl] at h
    cases h
    exact ⟨rfl, rfl, rfl⟩
  · rw [hl] at h
    cases node with
    | bytes b => cases h
    | bytesMut b => cases h; exact ⟨rfl, rfl, rfl⟩
    | faststr f => cases h

lemma reset_nil {lb : LB.LinkedBytes} (h : lb.list = []) :
    lb.reset = some { lb with ioslice := [], bytes := [] } := by
  unfold LB.LinkedBytes.reset
  rw [h]

lemma reset_isSome_of_headOk {lb : LB.LinkedBytes}
    (h : lb.list = [] ∨ ∃ b rest, lb.list = LB.Node.bytesMut b :: rest) :
    ∃ lb', lb.reset = some lb' := by
  unfold LB.LinkedBytes.reset
  rcases h with h | ⟨b, rest, h⟩ <;> rw [h] <;> exact ⟨_, rfl⟩

lemma oneByteSink_progress : ProgressSink oneByteSink := by
  intro s ss h
  exact ⟨min 1 ss.flatten.length, (), rfl, by omega, by omega⟩

/-! ### Claims -/

/-- C1: for every chain composed by a sequence of append/insert operations
and every sink that on each call (offering at least one byte) accepts at
least one byte and at most the bytes offered, both `write_all_vectored`
and `sync_write_all_vectored` return success and deliver to the sink
exactly the concatenation of all supplied pieces, in composition order.
(The positivity hypothesis reflects that the claim's sink class is only
inhabited when every driver call offers at least one byte: for an empty
chain the drivers offer a single zero-length tail range, for which no sink
can accept "at least one byte and at most the bytes offered".) -/
theorem C1_round_trip_delivery {σ : Type} (ops : List Op) (sink : Sink σ)
    (s : σ) (hsink : ProgressSink sink)
    (hne : 0 < (applyOps LB.LinkedBytes.new ops).len) :
    ((applyOps LB.LinkedBytes.new ops).write_all_vectored sink s).1.result
        = .ok ∧
    ((applyOps LB.LinkedBytes.new ops).write_all_vectored sink s).1.delivered
        = (ops.map Op.piece).flatten ∧
    ((applyOps LB.LinkedBytes.new ops).sync_write_all_vectored sink
        s).1.result = .ok ∧
    ((applyOps LB.LinkedBytes.new ops).sync_write_all_vectored sink
        s).1.delivered = (ops.map Op.piece).flatten := by
  have hio : (applyOps LB.LinkedBytes.new ops).ioslice = [] :=
    ioslice_applyOps _ _
  have hcontent : (applyOps LB.LinkedBytes.new ops).content
      = (ops.map Op.piece).flatten := by
    rw [content_applyOps, content_new, List.nil_append]
  have hflat : (applyOps LB.LinkedBytes.new ops).buildSlices.flatten
      = (ops.map Op.piece).flatten := by
    rw [buildSlices_flatten, hcontent]
  have hpos : (applyOps LB.LinkedBytes.new ops).buildSlices.flatten ≠ [] := by
    rw [hflat, ← hcontent]
    intro hc
    have hl := (applyOps LB.LinkedBytes.new ops).len_eq_content_length
    rw [hc] at hl
    simp only [List.length_nil] at hl
    omega
  obtain ⟨hres, hdel⟩ := writeLoop_ok sink hsink _
    (applyOps LB.LinkedBytes.new ops).buildSlices s rfl (Or.inr hpos)
  rw [sync_eq_async, write_fst sink s hio]
  exact ⟨hres, by rw [hdel, hflat], hres, by rw [hdel, hflat]⟩

/-- C1 witness: `append "ab"; insert "cde"` against the one-byte-per-call
sink drains successfully and delivers `"ab" ++ "cde"`. -/
theorem C1_round_trip_delivery_witness :
    ProgressSink oneByteSink ∧
    0 < (applyOps LB.LinkedBytes.new
        [Op.append [97, 98], Op.insert [99, 100, 101]]).len ∧
    ((applyOps LB.LinkedBytes.new
        [Op.append [97, 98], Op.insert [99, 100, 101]]).write_all_vectored
        oneByteSink ()).1.delivered = [97, 98, 99, 100, 101] := by
  refine ⟨oneByteSink_progress, by decide, ?_⟩
  have h := C1_round_trip_delivery
    [Op.append [97, 98], Op.insert [99, 100, 101]] oneByteSink ()
    oneByteSink_progress (by decide)
  exact h.2.1

/-- C2: in one iteration of the driver loop, when the sink accepted
`0 < n ≤` the bytes offered, the consumption step succeeds (no assert
fires) and the remaining range list holds exactly the suffix of the
offered bytes after the first `n` — leading ranges wholly covered by `n`
are removed and a range that `n` ends strictly inside is shrunk in
place. -/
theorem C2_partial_consume (ss : List (List Nat)) (n : Nat) (hn : 0 < n)
    (hle : n ≤ ss.flatten.length) :
    ∃ ss', advance ss n = some ss' ∧ ss'.flatten = ss.flatten.drop n ∧
      ss'.flatten.length < ss.flatten.length := by
  obtain ⟨ss', h⟩ := advance_of_le hle
  exact ⟨ss', h, advance_flatten h, advance_flatten_lt (by omega) h⟩

/-- C2 witness: the spec's concrete scenario — ranges `"AAAA"`, `"BBBB"`
and `n = 6`: the first range is removed and the second shrunk to `"BB"`. -/
theorem C2_partial_consume_witness :
    0 < 6 ∧
    6 ≤ ([[65, 65, 65, 65], [66, 66, 66, 66]] : List (List Nat)).flatten.length ∧
    (∃ ss', advance [[65, 65, 65, 65], [66, 66, 66, 66]] 6 = some ss' ∧
      ss'.flatten = ([[65, 65, 65, 65], [66, 66, 66, 66]] :
        List (List Nat)).flatten.drop 6 ∧
      ss'.flatten.length < ([[65, 65, 65, 65], [66, 66, 66, 66]] :
        List (List Nat)).flatten.length) ∧
    advance [[65, 65, 65, 65], [66, 66, 66, 66]] 6 = some [[66, 66]] :=
  ⟨by decide, by decide,
    C2_partial_consume [[65, 65, 65, 65], [66, 66, 66, 66]] 6 (by decide)
      (by decide), by decide⟩

/-- C3: for every sequence of `append_bytes`/`insert`/`insert_faststr`
calls starting from the empty chain, `len()` equals the sum of the lengths
of all supplied pieces, zero-length pieces included. -/
theorem C3_len_is_sum_of_pieces (ops : List Op) :
    (applyOps LB.LinkedBytes.new ops).len
      = (ops.map (fun op => op.piece.length)).sum := by
  rw [LinkedBytes.len_eq_content_length, content_applyOps, content_new,
    List.nil_append, List.length_flatten, List.map_map]
  rfl

/-- C4: whenever the vectored-write primitive reports 0 accepted bytes on
a non-empty range list, the driver fails immediately with the `WriteZero`
error having made exactly one sink call (no internal retry) — stated for
an arbitrary iteration of the loop, and at driver level for both
`write_all_vectored` and `sync_write_all_vectored`. -/
theorem C4_zero_progress_is_fatal {σ : Type} (sink : Sink σ)
    (ss : List (List Nat)) (s s' s2 s2' : σ) (lb : LB.LinkedBytes)
    (hne : ss ≠ []) (hcall : sink s ss = .ok (0, s'))
    (hio : lb.ioslice = [])
    (hcall2 : sink s2 lb.buildSlices = .ok (0, s2')) :
    writeLoop sink ss s = ⟨.writeZero, [], 1, s'⟩ ∧
    (lb.write_all_vectored sink s2).1 = ⟨.writeZero, [], 1, s2'⟩ ∧
    (lb.sync_write_all_vectored sink s2).1 = ⟨.writeZero, [], 1, s2'⟩ := by
  have hloop2 := writeLoop_writeZero (buildSlices_ne_nil lb) hcall2
  refine ⟨writeLoop_writeZero hne hcall, ?_, ?_⟩
  · rw [write_fst sink s2 hio, hloop2]
  · rw [sync_eq_async, write_fst sink s2 hio, hloop2]

/-- C4 witness: the always-zero sink against the range list `[[7]]` and
against a freshly composed one-byte chain: one call, `WriteZero`. -/
theorem C4_zero_progress_is_fatal_witness :
    ([[7]] : List (List Nat)) ≠ [] ∧
    zeroSink () [[7]] = .ok (0, ()) ∧
    (LB.LinkedBytes.new.append_bytes [1]).ioslice = [] ∧
    zeroSink () (LB.LinkedBytes.new.append_bytes [1]).buildSlices
      = .ok (0, ()) ∧
    writeLoop zeroSink [[7]] () = ⟨.writeZero, [], 1, ()⟩ ∧
    ((LB.LinkedBytes.new.append_bytes [1]).write_all_vectored zeroSink
        ()).1 = ⟨.writeZero, [], 1, ()⟩ := by
  have h := C4_zero_progress_is_fatal zeroSink [[7]] () () () ()
    (LB.LinkedBytes.new.append_bytes [1]) (by decide) rfl rfl rfl
  exact ⟨by decide, rfl, rfl, rfl, h.1, h.2.1⟩

/-- C5 counterexample: the claim "the scatter view contains no zero-length
range; a range for the tail appears only when it would be non-empty" fails
on the freshly created chain — its tail is empty, yet `io_slice` returns a
view holding the zero-length tail range. -/
theorem C5_counterexample :
    LB.LinkedBytes.new.io_slice = [[]] ∧
    ([] : List Nat) ∈ LB.LinkedBytes.new.io_slice ∧
    ¬ (∀ r ∈ LB.LinkedBytes.new.io_slice, r ≠ []) := by
  refine ⟨rfl, ?_, ?_⟩ <;> decide

/-- C5 amended: every zero-length segment is omitted from the scatter
view — all ranges before the last are non-empty — but the range for the
tail is always included as the final element, even when the tail is empty;
omitting the empty segments never changes the drained content. -/
theorem C5_amended_no_zero_length_segments (lb : LB.LinkedBytes) :
    (∀ r ∈ lb.io_slice.dropLast, r ≠ []) ∧
    lb.io_slice.getLast? = some lb.bytes ∧
    lb.io_slice.flatten = lb.content := by
  unfold LB.LinkedBytes.io_slice
  refine ⟨?_, ?_, buildSlices_flatten lb⟩
  · unfold LB.LinkedBytes.buildSlices
    rw [List.dropLast_concat]
    intro r hr
    have hb := List.of_mem_filter hr
    simpa using hb
  · unfold LB.LinkedBytes.buildSlices
    exact List.getLast?_concat _

/-- C6 counterexample: the claim "the scratch scatter view is emptied at
the end of the attempt whether it ends in success or in a fatal error"
fails on a one-byte chain with a sink that errors on the first call: the
driver returns the sink error without reaching `self.ioslice.clear()`,
leaving the scratch populated. -/
theorem C6_counterexample :
    ((LB.LinkedBytes.new.append_bytes [1]).write_all_vectored errSink
        ()).1.result = .sinkError ∧
    ((LB.LinkedBytes.new.append_bytes [1]).write_all_vectored errSink
        ()).2.ioslice ≠ [] := by
  have hloop := writeLoop_sinkError
    (buildSlices_ne_nil (LB.LinkedBytes.new.append_bytes [1]))
    (rfl : errSink () (LB.LinkedBytes.new.append_bytes [1]).buildSlices
      = .error ())
  constructor
  · rw [write_fst errSink () rfl, hloop]
  · rw [write_snd errSink () rfl, hloop]
    rw [if_neg (by decide)]
    exact buildSlices_ne_nil _

/-- C6 amended: the scratch scatter view is emptied by the end of the
attempt only on success; when the attempt ends in an error the early
return leaves it populated, and it is cleared again only by `reset` (whose
absence the next invocation's entry assert reports). -/
theorem C6_amended_scratch_cleared_only_on_success {σ : Type}
    (lb : LB.LinkedBytes) (sink : Sink σ) (s : σ) (hio : lb.ioslice = []) :
    ((lb.write_all_vectored sink s).1.result = .ok →
      (lb.write_all_vectored sink s).2.ioslice = [] ∧
      (lb.sync_write_all_vectored sink s).2.ioslice = []) ∧
    ((lb.write_all_vectored sink s).1.result ≠ .ok →
      (lb.write_all_vectored sink s).2.ioslice ≠ [] ∧
      (lb.sync_write_all_vectored sink s).2.ioslice ≠ []) ∧
    (∀ lb', lb.reset = some lb' → lb'.ioslice = []) := by
  rw [sync_eq_async, write_fst sink s hio, write_snd sink s hio]
  refine ⟨?_, ?_, fun lb' h => (reset_spec h).2.2⟩
  · intro hr
    rw [if_pos hr]
    exact ⟨rfl, rfl⟩
  · intro hr
    rw [if_neg hr]
    exact ⟨buildSlices_ne_nil lb, buildSlices_ne_nil lb⟩

/-- C6 amended witness: the erroring sink against a one-byte chain — the
result is not success and the scratch stays populated. -/
theorem C6_amended_scratch_witness :
    (LB.LinkedBytes.new.append_bytes [1]).ioslice = [] ∧
    (((LB.LinkedBytes.new.append_bytes [1]).write_all_vectored errSink
          ()).1.result ≠ .ok →
      ((LB.LinkedBytes.new.append_bytes [1]).write_all_vectored errSink
          ()).2.ioslice ≠ [] ∧
      ((LB.LinkedBytes.new.append_bytes [1]).sync_write_all_vectored errSink
          ()).2.ioslice ≠ []) := by
  have h := C6_amended_scratch_cleared_only_on_success
    (LB.LinkedBytes.new.append_bytes [1]) errSink () rfl
  exact ⟨rfl, h.2.1⟩

/-- C7: running either driver leaves the chain's segment list and tail
buffer (and hence `len()`) unchanged, whatever the outcome; only the
scratch scatter view differs between the pre- and post-state. -/
theorem C7_drivers_do_not_mutate_chain {σ : Type} (lb : LB.LinkedBytes)
    (sink : Sink σ) (s : σ) :
    ((lb.write_all_vectored sink s).2.list = lb.list ∧
     (lb.write_all_vectored sink s).2.bytes = lb.bytes ∧
     (lb.write_all_vectored sink s).2.len = lb.len) ∧
    ((lb.sync_write_all_vectored sink s).2.list = lb.list ∧
     (lb.sync_write_all_vectored sink s).2.bytes = lb.bytes ∧
     (lb.sync_write_all_vectored sink s).2.len = lb.len) := by
  rw [sync_eq_async]
  unfold LB.LinkedBytes.write_all_vectored
  split
  · exact ⟨⟨rfl, rfl, rfl⟩, ⟨rfl, rfl, rfl⟩⟩
  · split <;> exact ⟨⟨rfl, rfl, rfl⟩, ⟨rfl, rfl, rfl⟩⟩

/-- C8: whenever `reset` returns normally the post-state has zero segments
and a zero-length tail — hence `len() = 0` and `is_empty()` — and when the
segment list is empty, `reset` only clears the tail (and the scratch view)
and returns, leaving the chain otherwise untouched. -/
theorem C8_reset_postcondition {lb lb' : LB.LinkedBytes}
    (h : lb.reset = some lb') :
    lb'.list = [] ∧ lb'.bytes = [] ∧ lb'.len = 0 ∧ lb'.is_empty = true ∧
    (lb.list = [] → lb' = { lb with ioslice := [], bytes := [] }) := by
  obtain ⟨h1, h2, _⟩ := reset_spec h
  have hlen : lb'.len = 0 := by
    rw [LinkedBytes.len_eq_content_length]
    unfold LB.LinkedBytes.content
    rw [h1, h2]
    rfl
  refine ⟨h1, h2, hlen, ?_, ?_⟩
  · unfold LB.LinkedBytes.is_empty
    rw [hlen]
    rfl
  · intro hnil
    have hr := reset_nil hnil
    rw [hr] at h
    injection h with h'
    exact h'.symm

/-- C8 witness: resetting `append "xy"; insert "abc"` leaves the
all-empty chain. -/
theorem C8_reset_postcondition_witness :
    ((LB.LinkedBytes.new.append_bytes [120, 121]).insert
        [97, 98, 99]).reset = some ⟨[], [], []⟩ ∧
    (⟨[], [], []⟩ : LB.LinkedBytes).len = 0 ∧
    (⟨[], [], []⟩ : LB.LinkedBytes).is_empty = true := by
  have h := @C8_reset_postcondition
    ((LB.LinkedBytes.new.append_bytes [120, 121]).insert [97, 98, 99])
    ⟨[], [], []⟩ rfl
  exact ⟨rfl, h.2.2.1, h.2.2.2.1⟩

/-- C9: every chain reachable from the constructors through the public
composition operations and successful resets has a segment list that is
either empty or headed by a detached-fragment (`BytesMut`) node, so the
head-kind check in `reset` (`panic!("head is not BytesMut")`) never fires
on such a chain. -/
theorem C9_reachable_head_is_detached_fragment {lb : LB.LinkedBytes}
    (h : Reachable lb) :
    (lb.list = [] ∨ ∃ b rest, lb.list = LB.Node.bytesMut b :: rest) ∧
    ∃ lb', lb.reset = some lb' := by
  have hhead : lb.list = []
      ∨ ∃ b rest, lb.list = LB.Node.bytesMut b :: rest := by
    induction h with
    | with_capacity cap => exact Or.inl rfl
    | append data hr ih => exact ih
    | insert b hr ih =>
        rcases ih with h0 | ⟨b0, rest, h0⟩
        · exact Or.inr ⟨_, _, by
            show _ ++ _ = _
            rw [h0, List.nil_append]⟩
        · exact Or.inr ⟨b0, _, by
            show _ ++ _ = _
            rw [h0, List.cons_append]⟩
    | insert_faststr sdata hr ih =>
        rcases ih with h0 | ⟨b0, rest, h0⟩
        · exact Or.inr ⟨_, _, by
            show _ ++ _ = _
            rw [h0, List.nil_append]⟩
        · exact Or.inr ⟨b0, _, by
            show _ ++ _ = _
            rw [h0, List.cons_append]⟩
    | reset hr hsome ih => exact Or.inl (reset_spec hsome).1
  exact ⟨hhead, reset_isSome_of_headOk hhead⟩

/-- C9 witness: the chain `append "a"; insert "bc"` is reachable and its
head segment is the detached fragment `"a"`; `reset` succeeds on it. -/
theorem C9_reachable_head_witness :
    ((LB.LinkedBytes.new.append_bytes [97]).insert [98, 99]).list
        = LB.Node.bytesMut [97] :: [LB.Node.bytes [98, 99]] ∧
    (∃ lb', ((LB.LinkedBytes.new.append_bytes [97]).insert
        [98, 99]).reset = some lb') := by
  have hreach : Reachable ((LB.LinkedBytes.new.append_bytes [97]).insert
      [98, 99]) :=
    Reachable.insert [98, 99] (Reachable.append [97]
      (Reachable.with_capacity 8192))
  have h := C9_reachable_head_is_detached_fragment hreach
  exact ⟨rfl, h.2⟩

/-- C10: a chain with empty logical content still offers the sink a range
list holding exactly the zero-length tail slice; against a sink reporting
0 accepted bytes for it the drivers fail with the no-progress error after
a single call, and draining an empty chain never returns success whatever
the sink does. -/
theorem C10_empty_chain_never_ok {σ : Type} (lb : LB.LinkedBytes)
    (sink : Sink σ) (s : σ) (hlen : lb.len = 0) (hio : lb.ioslice = []) :
    lb.buildSlices = [[]] ∧
    (∀ s', sink s [[]] = .ok (0, s') →
      (lb.write_all_vectored sink s).1.result = .writeZero ∧
      (lb.write_all_vectored sink s).1.calls = 1 ∧
      (lb.sync_write_all_vectored sink s).1.result = .writeZero) ∧
    (lb.write_all_vectored sink s).1.result ≠ .ok ∧
    (lb.sync_write_all_vectored sink s).1.result ≠ .ok := by
  have hbs := buildSlices_of_len_zero hlen
  rw [sync_eq_async, write_fst sink s hio, hbs]
  have hnever : ∀ r : RunResult σ, r = writeLoop sink [[]] s →
      r.result ≠ .ok := by
    intro r hr
    cases hs : sink s [[]] with
    | error e =>
        rw [writeLoop_sinkError (by decide) hs] at hr
        subst hr
        simp
    | ok p =>
        obtain ⟨n, s'⟩ := p
        by_cases hn : n = 0
        · subst hn
          rw [writeLoop_writeZero (by decide) hs] at hr
          subst hr
          simp
        · rw [writeLoop_panicked (by decide) hs hn
            (advance_single_empty hn)] at hr
          subst hr
          simp
  refine ⟨rfl, ?_, hnever _ rfl, hnever _ rfl⟩
  intro s' hcall
  rw [writeLoop_writeZero (by decide) hcall]
  exact ⟨rfl, rfl, rfl⟩

/-- C10 witness: the freshly created (empty) chain against the always-zero
sink: the view is `[[]]` and the drivers return the no-progress error. -/
theorem C10_empty_chain_never_ok_witness :
    LB.LinkedBytes.new.buildSlices = [[]] ∧
    (LB.LinkedBytes.new.write_all_vectored zeroSink ()).1.result ≠ .ok ∧
    ((LB.LinkedBytes.new.write_all_vectored zeroSink ()).1.result
        = .writeZero ∧
      (LB.LinkedBytes.new.write_all_vectored zeroSink ()).1.calls = 1 ∧
      (LB.LinkedBytes.new.sync_write_all_vectored zeroSink ()).1.result
        = .writeZero) := by
  have h := C10_empty_chain_never_ok LB.LinkedBytes.new zeroSink () rfl rfl
  exact ⟨h.1, h.2.2.1, h.2.1 () rfl⟩

end LB
